import Mathlib

/- Verification development for the @faerscope/opencore statistics engine:
   disproportionality metrics over a 2x2 contingency table (PRR, chi-squared,
   ROR, IC with bounds), Benjamini-Hochberg FDR correction, and time-series
   statistics (rolling z-score, CUSUM changepoint detection).  The JavaScript
   number arithmetic is modelled over the real numbers. -/

namespace Opencore

noncomputable section

/-- The 2x2 contingency table for a drug-reaction pair.  Field `n` is the
total supplied by the caller; callers are responsible for the invariant
n = a+b+c+d. -/
structure ContingencyTable where
  a : ℝ
  b : ℝ
  c : ℝ
  d : ℝ
  n : ℝ

/-- Standard normal CDF approximation (Abramowitz and Stegun 26.2.17),
translated from normalCDF in the source. -/
def normalCDF (x : ℝ) : ℝ :=
  if x < -8 then 0
  else if 8 < x then 1
  else
    let sign : ℝ := if x < 0 then -1 else 1
    let absX := |x|
    let t := 1 / (1 + 0.3275911 * absX)
    let y := 1 -
      ((((1.061405429 * t + -1.453152027) * t + 1.421413741) * t + -0.284496736) * t
          + 0.254829592) * t * Real.exp (-absX * absX / 2)
    0.5 * (1 + sign * y)

/-- P-value from a chi-squared statistic with 1 degree of freedom
(chi2PValue1df in the source). -/
def chi2PValue1df (chi2 : ℝ) : ℝ :=
  if chi2 ≤ 0 then 1 else 2 * (1 - normalCDF (Real.sqrt chi2))

/-- Proportional Reporting Ratio (computePRR in the source). -/
def computePRR (t : ContingencyTable) : ℝ :=
  if t.a + t.b = 0 ∨ t.c + t.d = 0 ∨ t.c = 0 then 0
  else t.a / (t.a + t.b) / (t.c / (t.c + t.d))

/-- Chi-squared statistic for a 2x2 table, 1 df (computeChi2 in the source).
Note that the source recomputes the total as a+b+c+d and never reads `t.n`. -/
def computeChi2 (t : ContingencyTable) : ℝ :=
  let n := t.a + t.b + t.c + t.d
  let denom := (t.a + t.b) * (t.c + t.d) * (t.a + t.c) * (t.b + t.d)
  if denom = 0 then 0 else (t.a * t.d - t.b * t.c) ^ 2 * n / denom

/-- Reporting Odds Ratio (computeROR in the source). -/
def computeROR (t : ContingencyTable) : ℝ :=
  if t.b = 0 ∨ t.c = 0 then 0 else t.a * t.d / (t.b * t.c)

/-- Woolf 95% confidence interval for the ROR (computeROR_CI in the source). -/
def computeROR_CI (t : ContingencyTable) : ℝ × ℝ :=
  if t.a = 0 ∨ t.b = 0 ∨ t.c = 0 ∨ t.d = 0 then (0, 0)
  else
    let lnROR := Real.log (t.a * t.d / (t.b * t.c))
    let se := Real.sqrt (1 / t.a + 1 / t.b + 1 / t.c + 1 / t.d)
    (Real.exp (lnROR - 1.96 * se), Real.exp (lnROR + 1.96 * se))

/-- Information Component (computeIC in the source).  Math.log2 is modelled
as Real.logb 2; the source recomputes the total as a+b+c+d, ignoring `t.n`. -/
def computeIC (t : ContingencyTable) : ℝ :=
  let n := t.a + t.b + t.c + t.d
  if t.a = 0 ∨ t.a + t.b = 0 ∨ t.a + t.c = 0 then 0
  else
    let expected := (t.a + t.b) * (t.a + t.c) / n
    if expected = 0 then 0 else Real.logb 2 (t.a / expected)

/-- Lower 2.5% credibility bound of the IC (computeIC025 in the source);
Math.LN2 is Real.log 2. -/
def computeIC025 (t : ContingencyTable) : ℝ :=
  let ic := computeIC t
  if t.a ≤ 0 then 0
  else
    let se := 1 / (Real.log 2 * Real.sqrt (max t.a 0.5))
    ic - 1.96 * se

/-- Upper 97.5% credibility bound of the IC (computeIC975 in the source). -/
def computeIC975 (t : ContingencyTable) : ℝ :=
  let ic := computeIC t
  if t.a ≤ 0 then 0
  else
    let se := 1 / (Real.log 2 * Real.sqrt (max t.a 0.5))
    ic + 1.96 * se

end

/-- C1 counterexample: the table {a:2, b:1, c:1, d:2, n:100} has `n` different
from a+b+c+d = 6; computeChi2 does not return (ad-bc)^2 * n / product with the
supplied n = 100 (it uses the recomputed total 6 instead). -/
theorem c1_counterexample :
    computeChi2 ⟨2, 1, 1, 2, 100⟩ ≠
      ((2 * 2 - 1 * 1) ^ 2 * 100) / ((2 + 1) * (1 + 2) * (2 + 1) * (1 + 2)) := by
  rw [computeChi2]
  norm_num

/-- C1 amended: for every table whose four marginal totals are nonzero (counts
non-negative), computeChi2 returns (ad-bc)^2 * (a+b+c+d) / ((a+b)(c+d)(a+c)(b+d))
and computeIC uses expected = (a+b)(a+c)/(a+b+c+d): both recompute the total
from the cells and ignore the supplied `n` field entirely. -/
theorem c1_amended (t : ContingencyTable)
    (ha : 0 ≤ t.a) (hb : 0 ≤ t.b) (hc : 0 ≤ t.c) (hd : 0 ≤ t.d)
    (hab : t.a + t.b ≠ 0) (hcd : t.c + t.d ≠ 0)
    (hac : t.a + t.c ≠ 0) (hbd : t.b + t.d ≠ 0) :
    computeChi2 t = (t.a * t.d - t.b * t.c) ^ 2 * (t.a + t.b + t.c + t.d) /
        ((t.a + t.b) * (t.c + t.d) * (t.a + t.c) * (t.b + t.d)) ∧
    (∀ m : ℝ, computeChi2 { t with n := m } = computeChi2 t) ∧
    (t.a ≠ 0 → computeIC t =
        Real.logb 2 (t.a / ((t.a + t.b) * (t.a + t.c) / (t.a + t.b + t.c + t.d)))) ∧
    (∀ m : ℝ, computeIC { t with n := m } = computeIC t) := by
  refine ⟨?_, fun m => rfl, ?_, fun m => rfl⟩
  · rw [computeChi2]
    exact if_neg (by positivity)
  · intro ha0
    have hsum : 0 < t.a + t.b + t.c + t.d := by
      rcases lt_of_le_of_ne (by positivity) (Ne.symm hab) with h1
      nlinarith
    have hexp : (t.a + t.b) * (t.a + t.c) / (t.a + t.b + t.c + t.d) ≠ 0 := by
      apply div_ne_zero (mul_ne_zero hab hac) (ne_of_gt hsum)
    rw [computeIC]
    simp only [ha0, hab, hac, or_self, if_false, false_or, hexp]

/-- C1 amended witness at the table {a:1, b:1, c:1, d:1, n:4}. -/
theorem c1_amended_witness :
    computeChi2 ⟨1, 1, 1, 1, 4⟩ =
        ((1 : ℝ) * 1 - 1 * 1) ^ 2 * (1 + 1 + 1 + 1) / ((1 + 1) * (1 + 1) * (1 + 1) * (1 + 1)) ∧
    (∀ m : ℝ, computeChi2 { ContingencyTable.mk 1 1 1 1 4 with n := m } =
        computeChi2 ⟨1, 1, 1, 1, 4⟩) ∧
    ((1 : ℝ) ≠ 0 → computeIC ⟨1, 1, 1, 1, 4⟩ =
        Real.logb 2 (1 / (((1 : ℝ) + 1) * (1 + 1) / (1 + 1 + 1 + 1)))) ∧
    (∀ m : ℝ, computeIC { ContingencyTable.mk 1 1 1 1 4 with n := m } =
        computeIC ⟨1, 1, 1, 1, 4⟩) :=
  c1_amended ⟨1, 1, 1, 1, 4⟩ (by norm_num) (by norm_num) (by norm_num) (by norm_num)
    (by norm_num) (by norm_num) (by norm_num) (by norm_num)

noncomputable section

/-- Complete disproportionality analysis result for a single drug-reaction pair
(DisproportionalityScore in the source).  The two classifications are booleans
and fdrPValue is optional, set only by the batch FDR corrector. -/
structure DisproportionalityScore where
  reaction : String
  count : ℝ
  table : ContingencyTable
  prr : ℝ
  prrChi2 : ℝ
  prrPValue : ℝ
  ror : ℝ
  rorLower95 : ℝ
  rorUpper95 : ℝ
  ic : ℝ
  ic025 : ℝ
  ic975 : ℝ
  isSignal : Bool
  isStrongSignal : Bool
  fdrPValue : Option ℝ

/-- Score assembler (computeDisproportionality in the source): runs every
calculator once and applies the Evans and strong-signal classification rules. -/
def computeDisproportionality (reaction : String) (count : ℝ)
    (table : ContingencyTable) : DisproportionalityScore :=
  let prr := computePRR table
  let chi2 := computeChi2 table
  let pValue := chi2PValue1df chi2
  let ror := computeROR table
  let ci := computeROR_CI table
  let ic := computeIC table
  let ic025 := computeIC025 table
  let ic975 := computeIC975 table
  let isSignal := decide (2 ≤ prr) && decide (4 ≤ chi2) && decide (3 ≤ table.a)
  let isStrongSignal := decide (1 < ci.1) && decide (0 < ic025)
  ⟨reaction, count, table, prr, chi2, pValue, ror, ci.1, ci.2, ic, ic025, ic975,
    isSignal, isStrongSignal, none⟩

end

/-- Helper: the square root of a is at most b once a is at most b squared. -/
theorem sqrt_le_of_le_sq {a b : ℝ} (hb : 0 ≤ b) (h : a ≤ b ^ 2) : Real.sqrt a ≤ b := by
  calc Real.sqrt a ≤ Real.sqrt (b ^ 2) := Real.sqrt_le_sqrt h
  _ = b := Real.sqrt_sq hb

/-- Helper: b is at most the square root of a once b squared is at most a. -/
theorem le_sqrt_of_sq_le {a b : ℝ} (hb : 0 ≤ b) (h : b ^ 2 ≤ a) : b ≤ Real.sqrt a :=
  (Real.le_sqrt hb (le_trans (sq_nonneg b) h)).mpr h

/-- C2 counterexample: on the table {a:150, b:4850, c:3000, d:992000, n:1000000}
the returned PRR is (150/5000)/(3000/995000) = 9.95, not 10.0 as claimed. -/
theorem c2_counterexample :
    (computeDisproportionality "NAUSEA" 150 ⟨150, 4850, 3000, 992000, 1000000⟩).prr ≠ 10 := by
  show computePRR ⟨150, 4850, 3000, 992000, 1000000⟩ ≠ 10
  rw [computePRR]
  norm_num

/-- C2 amended: on the table {a:150, b:4850, c:3000, d:992000, n:1000000} the
score has prr = 9.95 (the documentation example rounds this to 10.0), and both
isSignal and isStrongSignal are true. -/
theorem c2_amended :
    (computeDisproportionality "NAUSEA" 150 ⟨150, 4850, 3000, 992000, 1000000⟩).prr = 9.95 ∧
    (computeDisproportionality "NAUSEA" 150
        ⟨150, 4850, 3000, 992000, 1000000⟩).isSignal = true ∧
    (computeDisproportionality "NAUSEA" 150
        ⟨150, 4850, 3000, 992000, 1000000⟩).isStrongSignal = true := by
  have hprr : computePRR ⟨150, 4850, 3000, 992000, 1000000⟩ = 9.95 := by
    rw [computePRR]; norm_num
  have hchi2 : (4 : ℝ) ≤ computeChi2 ⟨150, 4850, 3000, 992000, 1000000⟩ := by
    rw [computeChi2]; norm_num
  have hci1 : (computeROR_CI ⟨150, 4850, 3000, 992000, 1000000⟩).1
      = Real.exp (Real.log ((150 : ℝ) * 992000 / (4850 * 3000))
        - 1.96 * Real.sqrt (1 / 150 + 1 / 4850 + 1 / 3000 + 1 / 992000)) := by
    rw [computeROR_CI, if_neg (by norm_num)]
  have hlower : (1 : ℝ) < (computeROR_CI ⟨150, 4850, 3000, 992000, 1000000⟩).1 := by
    have hS : Real.sqrt ((1 : ℝ) / 150 + 1 / 4850 + 1 / 3000 + 1 / 992000) ≤ 0.085 :=
      sqrt_le_of_le_sq (by norm_num) (by norm_num)
    have hlogR : Real.log 2 ≤ Real.log ((150 : ℝ) * 992000 / (4850 * 3000)) :=
      Real.log_le_log (by norm_num) (by norm_num)
    have hl2 := Real.log_two_gt_d9
    have hmul : 1.96 * Real.sqrt ((1 : ℝ) / 150 + 1 / 4850 + 1 / 3000 + 1 / 992000)
        ≤ 1.96 * 0.085 := by nlinarith
    have h0 : (0 : ℝ) < Real.log ((150 : ℝ) * 992000 / (4850 * 3000))
        - 1.96 * Real.sqrt (1 / 150 + 1 / 4850 + 1 / 3000 + 1 / 992000) := by linarith
    calc (1 : ℝ) = Real.exp 0 := Real.exp_zero.symm
    _ < Real.exp (Real.log ((150 : ℝ) * 992000 / (4850 * 3000))
        - 1.96 * Real.sqrt (1 / 150 + 1 / 4850 + 1 / 3000 + 1 / 992000)) :=
      Real.exp_lt_exp.mpr h0
    _ = (computeROR_CI ⟨150, 4850, 3000, 992000, 1000000⟩).1 := hci1.symm
  have hic : computeIC ⟨150, 4850, 3000, 992000, 1000000⟩
      = Real.logb 2 ((150 : ℝ) /
          ((150 + 4850) * (150 + 3000) / (150 + 4850 + 3000 + 992000))) := by
    rw [computeIC]
    norm_num
  have hic3 : (3 : ℝ) < computeIC ⟨150, 4850, 3000, 992000, 1000000⟩ := by
    rw [hic]
    rw [Real.lt_logb_iff_rpow_lt (by norm_num) (by norm_num)]
    rw [show (3 : ℝ) = ((3 : ℕ) : ℝ) by norm_num, Real.rpow_natCast]
    norm_num
  have hic025 : (0 : ℝ) < computeIC025 ⟨150, 4850, 3000, 992000, 1000000⟩ := by
    rw [computeIC025, if_neg (by norm_num)]
    have hmax : max (150 : ℝ) 0.5 = 150 := by rw [max_eq_left]; norm_num
    rw [hmax]
    have hl2 := Real.log_two_gt_d9
    have hsq : (12 : ℝ) ≤ Real.sqrt 150 := le_sqrt_of_sq_le (by norm_num) (by norm_num)
    have hprod : (8.3 : ℝ) ≤ Real.log 2 * Real.sqrt 150 := by nlinarith
    have hse : 1 / (Real.log 2 * Real.sqrt 150) ≤ 1 / 8.3 :=
      one_div_le_one_div_of_le (by norm_num) hprod
    have hsepos : 0 < 1 / (Real.log 2 * Real.sqrt 150) := by positivity
    nlinarith [hic3]
  refine ⟨hprr, ?_, ?_⟩
  · show (decide ((2 : ℝ) ≤ computePRR ⟨150, 4850, 3000, 992000, 1000000⟩) &&
        decide ((4 : ℝ) ≤ computeChi2 ⟨150, 4850, 3000, 992000, 1000000⟩) &&
        decide ((3 : ℝ) ≤ (150 : ℝ))) = true
    rw [Bool.and_eq_true, Bool.and_eq_true]
    refine ⟨⟨?_, ?_⟩, ?_⟩ <;> rw [decide_eq_true_eq]
    · rw [hprr]; norm_num
    · exact hchi2
    · norm_num
  · show (decide ((1 : ℝ) < (computeROR_CI ⟨150, 4850, 3000, 992000, 1000000⟩).1) &&
        decide ((0 : ℝ) < computeIC025 ⟨150, 4850, 3000, 992000, 1000000⟩)) = true
    rw [Bool.and_eq_true]
    refine ⟨?_, ?_⟩ <;> rw [decide_eq_true_eq]
    · exact hlower
    · exact hic025

noncomputable section

/-- Comparator used by the FDR corrector to sort (index, p-value) pairs
ascending by p-value; ties keep original order (the sort is stable), matching
the JavaScript stable Array.prototype.sort with comparator (a, b) => a.p - b.p. -/
def pLE (x y : ℕ × ℝ) : Prop := x.2 ≤ y.2

instance : DecidableRel pLE := fun x y => Real.decidableLE x.2 y.2

instance : IsTotal (ℕ × ℝ) pLE := ⟨fun a b => le_total a.2 b.2⟩

instance : IsTrans (ℕ × ℝ) pLE := ⟨fun _ _ _ h1 h2 => le_trans h1 h2⟩

/-- Stable ascending sort of (index, p-value) pairs by p-value. -/
def sortByP (l : List (ℕ × ℝ)) : List (ℕ × ℝ) := List.insertionSort pLE l

/-- The step-up walk of applyBenjaminiHochberg: processes the sorted pairs from
rank `rank` upward; returns the assignments (original index, adjusted p-value)
in sorted order together with the running minimum cumMin after processing this
whole suffix (the source walks from rank m down to 1 carrying cumMin, assigning
adjusted[item.idx] = min(cumMin, 1) with raw = p * m / rank at each step). -/
def bhGo (m : ℕ) : ℕ → List (ℕ × ℝ) → List (ℕ × ℝ) × ℝ
  | _, [] => ([], 1)
  | rank, (i, p) :: rest =>
    let r := bhGo m (rank + 1) rest
    let raw := p * m / rank
    let cm := min r.2 raw
    ((i, min cm 1) :: r.1, cm)

/-- Benjamini-Hochberg FDR correction (applyBenjaminiHochberg in the source):
pair each score index with its raw p-value, stable-sort ascending by p-value,
compute adjusted p-values by the step-up walk, and return a new collection in
the original order with fdrPValue populated from the assignment. -/
def applyBenjaminiHochberg (scores : List DisproportionalityScore) :
    List DisproportionalityScore :=
  if scores.length = 0 then scores
  else
    let m := scores.length
    let indexed := (scores.map (fun s => s.prrPValue)).enum
    let sorted := sortByP indexed
    let adjusted := (bhGo m 1 sorted).1
    scores.enum.map (fun q => { q.2 with fdrPValue := adjusted.lookup q.1 })

end

/-- Helper: evaluation of the FDR corrector on a single-element batch. -/
theorem applyBH_singleton (s : DisproportionalityScore) :
    applyBenjaminiHochberg [s] =
      [{ s with fdrPValue := some (min (min 1 s.prrPValue) 1) }] := by
  rw [applyBenjaminiHochberg, if_neg (by norm_num)]
  show [({ s with fdrPValue := ((bhGo 1 1 (sortByP [(0, s.prrPValue)])).1).lookup 0 } :
      DisproportionalityScore)] = _
  have hsort : sortByP [(0, s.prrPValue)] = [(0, s.prrPValue)] := rfl
  rw [hsort]
  have hgo : (bhGo 1 1 [(0, s.prrPValue)]).1 =
      [(0, min (min 1 (s.prrPValue * (1 : ℕ) / (1 : ℕ))) 1)] := rfl
  rw [hgo]
  norm_num [List.lookup]

/-- A concrete score whose raw p-value is 2 (all other fields zero). -/
def cex7 : DisproportionalityScore :=
  ⟨"X", 0, ⟨0, 0, 0, 0, 0⟩, 0, 0, 2, 0, 0, 0, 0, 0, 0, false, false, none⟩

/-- C7 counterexample: on a single-element batch whose score has raw p-value 2,
the corrector returns fdrPValue = min(2, 1) = 1, not the raw p-value 2. -/
theorem c7_counterexample :
    (applyBenjaminiHochberg [cex7]).map (fun s => s.fdrPValue) ≠
      [some cex7.prrPValue] := by
  rw [applyBH_singleton]
  have h2 : cex7.prrPValue = 2 := rfl
  simp only [List.map_cons, List.map_nil, h2]
  norm_num

/-- C7 amended: on a single-element batch whose score has raw p-value at most 1
(true of every genuine p-value), the corrector yields fdrPValue equal to the raw
prrPValue (m = 1, rank = 1, adjusted = min(p, 1) = p). -/
theorem c7_amended (s : DisproportionalityScore) (h : s.prrPValue ≤ 1) :
    applyBenjaminiHochberg [s] = [{ s with fdrPValue := some s.prrPValue }] := by
  rw [applyBH_singleton, min_eq_right h, min_eq_left h]

/-- A concrete score whose raw p-value is 0.5 (all other fields zero). -/
def wit7 : DisproportionalityScore :=
  ⟨"W", 0, ⟨0, 0, 0, 0, 0⟩, 0, 0, 0.5, 0, 0, 0, 0, 0, 0, false, false, none⟩

/-- C7 amended witness at a batch of one score with raw p-value 0.5. -/
theorem c7_amended_witness :
    applyBenjaminiHochberg [wit7] = [{ wit7 with fdrPValue := some wit7.prrPValue }] :=
  c7_amended wit7 (by norm_num [wit7])

/-- Helper: the step-up walk preserves the keys (original indices) of the
sorted pairs, in order. -/
theorem bhGo_fst (m r : ℕ) (l : List (ℕ × ℝ)) :
    (bhGo m r l).1.map Prod.fst = l.map Prod.fst := by
  induction l generalizing r with
  | nil => rfl
  | cons x rest ih =>
    obtain ⟨i, p⟩ := x
    simp only [bhGo, List.map_cons]
    rw [ih (r + 1)]

/-- Helper: the step-up walk preserves length. -/
theorem bhGo_length (m r : ℕ) (l : List (ℕ × ℝ)) :
    (bhGo m r l).1.length = l.length := by
  have h := congrArg List.length (bhGo_fst m r l)
  simpa using h

/-- Helper: a key that occurs among the first components of an association
list is found by lookup. -/
theorem lookup_mem_keys (l : List (ℕ × ℝ)) (i : ℕ) (h : i ∈ l.map Prod.fst) :
    ∃ v, l.lookup i = some v := by
  induction l with
  | nil => simp at h
  | cons x rest ih =>
    obtain ⟨k, b⟩ := x
    by_cases hik : i = k
    · have hb : (i == k) = true := beq_iff_eq.mpr hik
      exact ⟨b, by simp [List.lookup, hb]⟩
    · have hb : (i == k) = false := beq_eq_false_iff_ne.mpr hik
      have hmem : i ∈ rest.map Prod.fst := by
        simpa [hik] using h
      obtain ⟨v, hv⟩ := ih hmem
      refine ⟨v, ?_⟩
      simpa [List.lookup, hb] using hv

/-- Helper: every index below the batch size occurs among the keys of the
step-up walk assignment list. -/
theorem mem_keys_adjusted (scores : List DisproportionalityScore) (k : ℕ)
    (hk : k < scores.length) :
    k ∈ ((bhGo scores.length 1
        (sortByP ((scores.map (fun s => s.prrPValue)).enum))).1).map Prod.fst := by
  rw [bhGo_fst]
  have hperm : (sortByP ((scores.map (fun s => s.prrPValue)).enum)).Perm
      ((scores.map (fun s => s.prrPValue)).enum) := List.perm_insertionSort pLE _
  rw [(hperm.map Prod.fst).mem_iff, List.enum_map_fst, List.length_map]
  exact List.mem_range.mpr hk

/-- C4: applyBenjaminiHochberg returns a new collection of the same length and
order as the input in which every element is the corresponding input element
with only fdrPValue changed, and changed to a populated (some) value; the empty
batch yields the empty collection. -/
theorem c4_fdr_frame :
    applyBenjaminiHochberg ([] : List DisproportionalityScore) = [] ∧
    ∀ scores : List DisproportionalityScore, ∃ vs : List ℝ,
      vs.length = scores.length ∧
      applyBenjaminiHochberg scores =
        (scores.zip vs).map (fun q => { q.1 with fdrPValue := some q.2 }) := by
  refine ⟨rfl, ?_⟩
  intro scores
  by_cases h0 : scores.length = 0
  · refine ⟨[], by simp [h0], ?_⟩
    have hnil : scores = [] := List.length_eq_zero.mp h0
    subst hnil
    rfl
  · set adjusted := (bhGo scores.length 1
        (sortByP ((scores.map (fun s => s.prrPValue)).enum))).1 with hadj
    refine ⟨(List.range scores.length).map (fun i => (adjusted.lookup i).getD 0),
      by simp, ?_⟩
    have happ : applyBenjaminiHochberg scores =
        scores.enum.map (fun q => { q.2 with fdrPValue := adjusted.lookup q.1 }) := by
      rw [applyBenjaminiHochberg, if_neg h0]
    rw [happ]
    apply List.ext_getElem
    · simp [List.enum_length]
    · intro k h1 h2
      have hk : k < scores.length := by
        simpa [List.enum_length] using h1
      obtain ⟨v, hv⟩ := lookup_mem_keys adjusted k (mem_keys_adjusted scores k hk)
      simp only [List.getElem_map, List.getElem_enum, List.getElem_zip,
        List.getElem_range, hv, Option.getD_some]

/-- Helper: head equation of the step-up walk, second component. -/
theorem bhGo_cons_snd (m r : ℕ) (x : ℕ × ℝ) (t : List (ℕ × ℝ)) :
    (bhGo m r (x :: t)).2 = min (bhGo m (r + 1) t).2 (x.2 * m / r) := by
  obtain ⟨i, p⟩ := x
  rfl

/-- Helper: head equation of the step-up walk, first component. -/
theorem bhGo_cons_fst (m r : ℕ) (x : ℕ × ℝ) (t : List (ℕ × ℝ)) :
    (bhGo m r (x :: t)).1 =
      (x.1, min (min (bhGo m (r + 1) t).2 (x.2 * m / r)) 1) :: (bhGo m (r + 1) t).1 := by
  obtain ⟨i, p⟩ := x
  rfl

/-- Helper: element access is invariant under rewriting the index. -/
theorem getElem_idx_congr {α : Type _} (l : List α) {i i2 : ℕ} (h : i = i2)
    (hi : i < l.length) (hi2 : i2 < l.length) : l[i] = l[i2] := by
  subst h
  rfl

/-- Helper: the j-th assignment produced by the step-up walk pairs the j-th
sorted key with min(cumMin over the suffix from position j, 1). -/
theorem bhGo_getElem (m : ℕ) (l : List (ℕ × ℝ)) (r j : ℕ) (hj : j < l.length)
    (hj2 : j < (bhGo m r l).1.length) :
    (bhGo m r l).1[j] = ((l[j]).1, min (bhGo m (r + j) (l.drop j)).2 1) := by
  induction l generalizing r j with
  | nil => exact absurd hj (Nat.not_lt_zero j)
  | cons x rest ih =>
    cases j with
    | zero =>
      simp only [bhGo_cons_fst, bhGo_cons_snd, List.getElem_cons_zero,
        List.drop_zero, Nat.add_zero]
    | succ j =>
      have hjr : j < rest.length := Nat.lt_of_succ_lt_succ hj
      have hjr2 : j < (bhGo m (r + 1) rest).1.length := by
        rw [bhGo_length]; exact hjr
      simp only [bhGo_cons_fst, List.getElem_cons_succ, List.drop_succ_cons]
      rw [ih (r + 1) j hjr hjr2, show r + 1 + j = r + (j + 1) by omega]

/-- Helper: the running minimum of the step-up walk over a list is at most the
running minimum over any of its suffixes. -/
theorem bhGo_snd_le_drop (m : ℕ) (l : List (ℕ × ℝ)) (r k : ℕ) :
    (bhGo m r l).2 ≤ (bhGo m (r + k) (l.drop k)).2 := by
  induction k generalizing l r with
  | zero => simp
  | succ k ih =>
    cases l with
    | nil => simp [bhGo]
    | cons x rest =>
      have h1 : (bhGo m r (x :: rest)).2 ≤ (bhGo m (r + 1) rest).2 := by
        rw [bhGo_cons_snd]; exact min_le_left _ _
      have h2 := ih rest (r + 1)
      rw [List.drop_succ_cons, show r + (k + 1) = r + 1 + k by omega]
      exact h1.trans h2

/-- Helper: when the p-values at positions 0 and k of a sorted non-negative
list agree, the running minimum of the suffix from k is no smaller than the
running minimum of the whole list (all the intermediate raw values are at
least the later ones, so dropping them does not raise the minimum). -/
theorem bhGo_snd_drop_le (m : ℕ) (l : List (ℕ × ℝ)) (r k : ℕ) (hk : k < l.length)
    (hk0 : 0 < l.length)
    (hr : 1 ≤ r) (hsort : l.Pairwise pLE) (hpos : ∀ x ∈ l, 0 ≤ x.2)
    (heq : (l[0]).2 = (l[k]).2) :
    (bhGo m (r + k) (l.drop k)).2 ≤ (bhGo m r l).2 := by
  induction k generalizing l r with
  | zero => simp
  | succ k ih =>
    cases l with
    | nil => exact absurd hk (Nat.not_lt_zero _)
    | cons x rest =>
      have hk2 : k < rest.length := Nat.lt_of_succ_lt_succ hk
      have hx : (x :: rest)[0] = x := List.getElem_cons_zero _ _ _
      have heqp : x.2 = (rest[k]).2 := by
        have h1 : ((x :: rest)[k + 1]).2 = (rest[k]).2 := by
          rw [List.getElem_cons_succ]
        rw [← h1, ← heq, hx]
      have hpairs : ∀ y ∈ rest, x.2 ≤ y.2 :=
        fun y hy => (List.pairwise_cons.mp hsort).1 y hy
      have hrest0 : 0 < rest.length := Nat.lt_of_le_of_lt (Nat.zero_le k) hk2
      have heq0 : ((rest[0])).2 = (rest[k]).2 := by
        rcases Nat.eq_zero_or_pos k with hzero | hposk
        · subst hzero; rfl
        · refine le_antisymm ?_ ?_
          · exact List.pairwise_iff_getElem.mp (List.pairwise_cons.mp hsort).2
              0 k hrest0 hk2 hposk
          · rw [← heqp]; exact hpairs _ (List.getElem_mem hrest0)
      have hIH := ih rest (r + 1) hk2 hrest0 (by omega) (List.pairwise_cons.mp hsort).2
        (fun y hy => hpos y (List.mem_cons_of_mem _ hy)) heq0
      have hp0 : 0 ≤ x.2 := hpos x (List.mem_cons_self _ _)
      have hdrop : rest.drop k = rest[k] :: rest.drop (k + 1) :=
        List.drop_eq_getElem_cons hk2
      have hraw : (bhGo m (r + 1 + k) (rest.drop k)).2 ≤ x.2 * m / r := by
        rw [hdrop, bhGo_cons_snd]
        refine (min_le_right _ _).trans ?_
        rw [← heqp]
        have hr0 : (0 : ℝ) < (r : ℝ) := by exact_mod_cast hr
        have hrle : ((r : ℝ)) ≤ ((r + 1 + k : ℕ) : ℝ) := by
          push_cast
          linarith [Nat.cast_nonneg (α := ℝ) k]
        exact div_le_div_of_nonneg_left (by positivity) hr0 hrle
      rw [List.drop_succ_cons, show r + (k + 1) = r + 1 + k by omega, bhGo_cons_snd]
      refine le_min ?_ ?_
      · rw [show r + 1 + k = (r + 1) + k by omega]
        exact hIH
      · exact hraw

/-- Helper: along the sorted order, a position whose p-value is at most the
p-value at another position receives an adjusted value at most the other
adjusted value at the other position (for a sorted batch of non-negative
p-values). -/
theorem bhGo_value_mono (m : ℕ) (l : List (ℕ × ℝ)) (hsort : l.Pairwise pLE)
    (hpos : ∀ x ∈ l, 0 ≤ x.2) (j j2 : ℕ) (hj : j < l.length) (hj2 : j2 < l.length)
    (hjb : j < (bhGo m 1 l).1.length) (hj2b : j2 < (bhGo m 1 l).1.length)
    (hple : (l[j]).2 ≤ (l[j2]).2) :
    ((bhGo m 1 l).1[j]).2 ≤ ((bhGo m 1 l).1[j2]).2 := by
  rw [bhGo_getElem m l 1 j hj, bhGo_getElem m l 1 j2 hj2]
  have hC : (bhGo m (1 + j) (l.drop j)).2 ≤ (bhGo m (1 + j2) (l.drop j2)).2 := by
    rcases le_or_lt j j2 with hle | hlt
    · have h := bhGo_snd_le_drop m (l.drop j) (1 + j) (j2 - j)
      rw [List.drop_drop, show j + (j2 - j) = j2 by omega,
        show 1 + j + (j2 - j) = 1 + j2 by omega] at h
      exact h
    · have hsorted2 : (l[j2]).2 ≤ (l[j]).2 :=
        List.pairwise_iff_getElem.mp hsort j2 j hj2 hj hlt
      have heq : (l[j2]).2 = (l[j]).2 := le_antisymm hsorted2 hple
      have hk : j - j2 < (l.drop j2).length := by
        rw [List.length_drop]; omega
      have hk0 : 0 < (l.drop j2).length := Nat.lt_of_le_of_lt (Nat.zero_le _) hk
      have hu0 : ((l.drop j2)[0]).2 = ((l.drop j2)[j - j2]).2 := by
        rw [List.getElem_drop, List.getElem_drop]
        rw [getElem_idx_congr l (show j2 + 0 = j2 by omega) (by omega) hj2,
          getElem_idx_congr l (show j2 + (j - j2) = j by omega) (by omega) hj]
        exact heq
      have htie := bhGo_snd_drop_le m (l.drop j2) (1 + j2) (j - j2) hk hk0 (by omega)
        (hsort.sublist (List.drop_sublist _ _))
        (fun x hx => hpos x (List.mem_of_mem_drop hx)) hu0
      rw [List.drop_drop, show j2 + (j - j2) = j by omega,
        show 1 + j2 + (j - j2) = 1 + j by omega] at htie
      exact htie
  exact min_le_min hC le_rfl

/-- Helper: when the keys of an association list are distinct, lookup of a key
that is present returns the associated value. -/
theorem lookup_eq_of_mem_nodup (l : List (ℕ × ℝ)) (hn : (l.map Prod.fst).Nodup)
    {i : ℕ} {v : ℝ} (hm : (i, v) ∈ l) : l.lookup i = some v := by
  induction l with
  | nil => simp at hm
  | cons x rest ih =>
    obtain ⟨k, b⟩ := x
    rw [List.map_cons, List.nodup_cons] at hn
    rcases List.mem_cons.mp hm with hx | hx
    · obtain ⟨h1, h2⟩ := Prod.mk.injEq .. ▸ hx
      subst h1; subst h2
      have hb : (i == i) = true := beq_self_eq_true i
      simp [List.lookup, hb]
    · have hik : i ≠ k := by
        intro hcon
        subst hcon
        exact hn.1 (List.mem_map.mpr ⟨(i, v), hx, rfl⟩)
      have hb : (i == k) = false := beq_eq_false_iff_ne.mpr hik
      have htail := ih hn.2 hx
      simpa [List.lookup, hb] using htail

/-- Helper: every element of the FDR corrector output carries the p-value at
some position j of the sorted pair list and the adjusted value at that same
position of the step-up walk output. -/
theorem applyBH_mem_char (scores : List DisproportionalityScore)
    (h0 : scores.length ≠ 0) (x : DisproportionalityScore)
    (hx : x ∈ applyBenjaminiHochberg scores) :
    ∃ (j : ℕ) (hj : j < (sortByP ((scores.map (fun s => s.prrPValue)).enum)).length)
      (hjb : j < (bhGo scores.length 1
        (sortByP ((scores.map (fun s => s.prrPValue)).enum))).1.length),
      x.prrPValue = ((sortByP ((scores.map (fun s => s.prrPValue)).enum))[j]).2 ∧
      x.fdrPValue = some (((bhGo scores.length 1
          (sortByP ((scores.map (fun s => s.prrPValue)).enum))).1[j]).2) := by
  have happ : applyBenjaminiHochberg scores =
      scores.enum.map (fun q => { q.2 with fdrPValue :=
        ((bhGo scores.length 1
          (sortByP ((scores.map (fun s => s.prrPValue)).enum))).1).lookup q.1 }) := by
    rw [applyBenjaminiHochberg, if_neg h0]
  rw [happ] at hx
  obtain ⟨q, hq, rfl⟩ := List.mem_map.mp hx
  obtain ⟨k, hk, hkq⟩ := List.getElem_of_mem hq
  subst hkq
  have hk2 : k < scores.length := by
    simpa [List.enum_length] using hk
  simp only [List.getElem_enum]
  have hkps : k < (scores.map (fun s => s.prrPValue)).length := by
    rw [List.length_map]; exact hk2
  have hke : k < ((scores.map (fun s => s.prrPValue)).enum).length := by
    rw [List.enum_length]; exact hkps
  have hmem : (k, (scores.map (fun s => s.prrPValue))[k]) ∈
      sortByP ((scores.map (fun s => s.prrPValue)).enum) := by
    apply (List.perm_insertionSort pLE _).mem_iff.mpr
    have he : ((scores.map (fun s => s.prrPValue)).enum[k]) =
        (k, (scores.map (fun s => s.prrPValue))[k]) := List.getElem_enum _ _ _
    rw [← he]
    exact List.getElem_mem _
  obtain ⟨j, hj, hjq⟩ := List.getElem_of_mem hmem
  have hjb : j < (bhGo scores.length 1
      (sortByP ((scores.map (fun s => s.prrPValue)).enum))).1.length := by
    rw [bhGo_length]; exact hj
  refine ⟨j, hj, hjb, ?_, ?_⟩
  · rw [hjq]
    simp [List.getElem_map]
  · have hfst : ((bhGo scores.length 1
        (sortByP ((scores.map (fun s => s.prrPValue)).enum))).1[j]) =
        (k, ((bhGo scores.length 1
          (sortByP ((scores.map (fun s => s.prrPValue)).enum))).1[j]).2) := by
      rw [bhGo_getElem _ _ _ _ hj hjb, hjq]
    have hnodup : (((bhGo scores.length 1
        (sortByP ((scores.map (fun s => s.prrPValue)).enum))).1).map Prod.fst).Nodup := by
      rw [bhGo_fst]
      have hp2 := (List.perm_insertionSort pLE
        ((scores.map (fun s => s.prrPValue)).enum)).map Prod.fst
      rw [List.enum_map_fst] at hp2
      exact hp2.symm.nodup (List.nodup_range _)
    have hlook := lookup_eq_of_mem_nodup _ hnodup (hfst ▸ List.getElem_mem hjb)
    simp only [hlook]

/-- Helper: across the FDR corrector output, lower or equal raw p-value implies
lower or equal adjusted p-value, as long as all raw p-values are non-negative. -/
theorem applyBH_fdr_mono (scores : List DisproportionalityScore)
    (hp : ∀ s ∈ scores, 0 ≤ s.prrPValue) (x : DisproportionalityScore)
    (hx : x ∈ applyBenjaminiHochberg scores) (y : DisproportionalityScore)
    (hy : y ∈ applyBenjaminiHochberg scores)
    (hple : x.prrPValue ≤ y.prrPValue) :
    x.fdrPValue.getD 0 ≤ y.fdrPValue.getD 0 := by
  have h0 : scores.length ≠ 0 := by
    intro hc
    rw [List.length_eq_zero] at hc
    subst hc
    simp [applyBenjaminiHochberg] at hx
  obtain ⟨j, hj, hjb, hxp, hxf⟩ := applyBH_mem_char scores h0 x hx
  obtain ⟨j2, hj2, hj2b, hyp, hyf⟩ := applyBH_mem_char scores h0 y hy
  have hsort : (sortByP ((scores.map (fun s => s.prrPValue)).enum)).Pairwise pLE :=
    List.sorted_insertionSort pLE _
  have hpos : ∀ q ∈ sortByP ((scores.map (fun s => s.prrPValue)).enum), 0 ≤ q.2 := by
    intro q hq
    have hq2 : q ∈ (scores.map (fun s => s.prrPValue)).enum :=
      (List.perm_insertionSort pLE _).subset hq
    obtain ⟨k, hk, hkq⟩ := List.getElem_of_mem hq2
    rw [List.getElem_enum] at hkq
    have hk2 : k < scores.length := by
      have := hk
      rw [List.enum_length, List.length_map] at this
      exact this
    rw [← hkq]
    simp only [List.getElem_map]
    exact hp _ (List.getElem_mem hk2)
  have hmono := bhGo_value_mono scores.length _ hsort hpos j j2 hj hj2 hjb hj2b
    (by rw [← hxp, ← hyp]; exact hple)
  rw [hxf, hyf]
  simpa using hmono

/-- C3 amended: for every batch of scores whose raw p-values are all
non-negative (true of every genuine p-value), any arrangement of the corrector
output ascending by raw p-value has a non-decreasing fdrPValue sequence.  (For
negative raw p-values the claim fails, see the counterexample.) -/
theorem c3_amended (scores : List DisproportionalityScore)
    (hp : ∀ s ∈ scores, 0 ≤ s.prrPValue) (out : List DisproportionalityScore)
    (hperm : out.Perm (applyBenjaminiHochberg scores))
    (hsorted : (out.map (fun s => s.prrPValue)).Sorted (· ≤ ·)) :
    (out.map (fun s => s.fdrPValue.getD 0)).Sorted (· ≤ ·) := by
  have hps : out.Pairwise (fun a b => a.prrPValue ≤ b.prrPValue) :=
    List.pairwise_map.mp hsorted
  have hgoal : out.Pairwise (fun a b => a.fdrPValue.getD 0 ≤ b.fdrPValue.getD 0) := by
    refine hps.imp_of_mem ?_
    intro a b ha hb hab
    exact applyBH_fdr_mono scores hp a (hperm.subset ha) b (hperm.subset hb) hab
  exact List.pairwise_map.mpr hgoal

/-- Helper: evaluation of the FDR corrector on a two-element batch whose first
element has the smaller (or equal) raw p-value: the stable sort keeps the
original order, the second element gets rank 2 and the first rank 1. -/
theorem applyBH_pair (s t : DisproportionalityScore)
    (h : s.prrPValue ≤ t.prrPValue) :
    applyBenjaminiHochberg [s, t] =
      [{ s with
          fdrPValue := some (min (min (min 1 (t.prrPValue * 2 / 2)) (s.prrPValue * 2 / 1)) 1) },
       { t with fdrPValue := some (min (min 1 (t.prrPValue * 2 / 2)) 1) }] := by
  rw [applyBenjaminiHochberg, if_neg (by norm_num)]
  have hsort : sortByP [(0, s.prrPValue), (1, t.prrPValue)] =
      [(0, s.prrPValue), (1, t.prrPValue)] := by
    simp only [sortByP, List.insertionSort, List.orderedInsert]
    rw [if_pos (show pLE (0, s.prrPValue) (1, t.prrPValue) from h)]
  show List.map (fun q => ({ q.2 with fdrPValue :=
      ((bhGo ([s, t] : List DisproportionalityScore).length 1
        (sortByP [(0, s.prrPValue), (1, t.prrPValue)])).1).lookup q.1 }
        : DisproportionalityScore)) [(0, s), (1, t)] = _
  rw [hsort]
  have hb00 : ((0 : ℕ) == 0) = true := rfl
  have hb10 : ((1 : ℕ) == 0) = false := rfl
  have hb11 : ((1 : ℕ) == 1) = true := rfl
  simp only [bhGo, List.map_cons, List.map_nil, List.lookup, List.length_cons,
    List.length_nil, hb00, hb10, hb11]
  norm_num

/-- A concrete score whose raw p-value is -1 (all other fields zero). -/
def cex3 : DisproportionalityScore :=
  ⟨"X", 0, ⟨0, 0, 0, 0, 0⟩, 0, 0, -1, 0, 0, 0, 0, 0, 0, false, false, none⟩

/-- C3 counterexample: the batch of two identical scores with raw p-value -1
yields adjusted values -2 (rank 1) and -1 (rank 2); arranging the output with
the fdr = -1 element first is ascending by raw p-value (a tie), yet the
fdrPValue sequence -1, -2 is decreasing, so the claim fails as stated for
batches containing negative raw p-values. -/
theorem c3_counterexample :
    ([{ cex3 with fdrPValue := some (-1) }, { cex3 with fdrPValue := some (-2) }] :
        List DisproportionalityScore).Perm (applyBenjaminiHochberg [cex3, cex3]) ∧
    (([{ cex3 with fdrPValue := some (-1) }, { cex3 with fdrPValue := some (-2) }].map
        (fun s => s.prrPValue)).Sorted (· ≤ ·)) ∧
    ¬ (([{ cex3 with fdrPValue := some (-1) }, { cex3 with fdrPValue := some (-2) }].map
        (fun s => s.fdrPValue.getD 0)).Sorted (· ≤ ·)) := by
  have happ : applyBenjaminiHochberg [cex3, cex3] =
      [{ cex3 with fdrPValue := some (-2) }, { cex3 with fdrPValue := some (-1) }] := by
    rw [applyBH_pair cex3 cex3 le_rfl]
    norm_num [cex3, min_def]
  refine ⟨?_, ?_, ?_⟩
  · rw [happ]
    exact List.Perm.swap _ _ _
  · simp [List.sorted_cons, cex3]
  · intro hcon
    have h2 := (List.pairwise_map.mp hcon)
    rw [List.pairwise_cons] at h2
    have := h2.1 _ (List.mem_cons_self _ _)
    norm_num [cex3] at this

/-- A concrete score whose raw p-value is 0.1 (all other fields zero). -/
def wit3a : DisproportionalityScore :=
  ⟨"A", 0, ⟨0, 0, 0, 0, 0⟩, 0, 0, 0.1, 0, 0, 0, 0, 0, 0, false, false, none⟩

/-- A concrete score whose raw p-value is 0.2 (all other fields zero). -/
def wit3b : DisproportionalityScore :=
  ⟨"B", 0, ⟨0, 0, 0, 0, 0⟩, 0, 0, 0.2, 0, 0, 0, 0, 0, 0, false, false, none⟩

/-- C3 amended witness at the batch with raw p-values 0.1 and 0.2, arranged in
the output order (which is ascending by raw p-value). -/
theorem c3_amended_witness :
    ((applyBenjaminiHochberg [wit3a, wit3b]).map
        (fun s => s.fdrPValue.getD 0)).Sorted (· ≤ ·) := by
  have hpair := applyBH_pair wit3a wit3b (by norm_num [wit3a, wit3b])
  refine c3_amended [wit3a, wit3b] ?_ _ (List.Perm.refl _) ?_
  · intro u hu
    rcases List.mem_cons.mp hu with h | h
    · subst h; norm_num [wit3a]
    · rcases List.mem_cons.mp h with h2 | h2
      · subst h2; norm_num [wit3b]
      · simp at h2
  · rw [hpair]
    simp only [List.map_cons, List.map_nil]
    have ha : ({ wit3a with
        fdrPValue := some (min (min (min 1 (wit3b.prrPValue * 2 / 2)) (wit3a.prrPValue * 2 / 1)) 1) } :
        DisproportionalityScore).prrPValue = 0.1 := rfl
    have hb : ({ wit3b with
        fdrPValue := some (min (min 1 (wit3b.prrPValue * 2 / 2)) 1) } :
        DisproportionalityScore).prrPValue = 0.2 := rfl
    rw [ha, hb]
    simp [List.sorted_cons]
    norm_num

/-- C5 counterexample: for the table {a:1, b:0, c:1, d:0} the hypotheses
a+b > 0, c+d > 0, c > 0 hold, yet raising a from 1 to 2 leaves the PRR at
(a/(a+0))/(c/(c+d)) = 1 unchanged, so PRR is not strictly increasing in a
when b = 0. -/
theorem c5_counterexample :
    computePRR ⟨1, 0, 1, 0, 2⟩ = 1 ∧ computePRR ⟨2, 0, 1, 0, 3⟩ = 1 ∧
    ¬ computePRR ⟨1, 0, 1, 0, 2⟩ < computePRR ⟨2, 0, 1, 0, 3⟩ := by
  have h1 : computePRR ⟨1, 0, 1, 0, 2⟩ = 1 := by
    rw [computePRR]; norm_num
  have h2 : computePRR ⟨2, 0, 1, 0, 3⟩ = 1 := by
    rw [computePRR]; norm_num
  refine ⟨h1, h2, ?_⟩
  rw [h1, h2]
  exact lt_irrefl 1

/-- C5 amended: for non-negative cells with b > 0 (not merely a+b > 0), c > 0
and d ≥ 0, computePRR is strictly increasing in the cell a holding b, c, d
fixed (the n field is ignored by computePRR and may differ). -/
theorem c5_amended (a a2 b c d n n2 : ℝ) (ha : 0 ≤ a) (haa : a < a2)
    (hb : 0 < b) (hc : 0 < c) (hd : 0 ≤ d) :
    computePRR ⟨a, b, c, d, n⟩ < computePRR ⟨a2, b, c, d, n2⟩ := by
  have ha2 : 0 < a2 := lt_of_le_of_lt ha haa
  rw [computePRR, computePRR]
  dsimp only
  rw [if_neg (by push_neg; refine ⟨by positivity, by positivity, by positivity⟩)]
  rw [if_neg (by push_neg; refine ⟨by positivity, by positivity, by positivity⟩)]
  have hfrac : a / (a + b) < a2 / (a2 + b) := by
    rw [div_lt_div_iff (by positivity) (by positivity)]
    nlinarith
  have hcd : 0 < c / (c + d) := by positivity
  exact div_lt_div_of_pos_right hfrac hcd

/-- C5 amended witness: raising a from 1 to 2 with b = c = d = 1 strictly
raises the PRR. -/
theorem c5_amended_witness :
    computePRR ⟨1, 1, 1, 1, 4⟩ < computePRR ⟨2, 1, 1, 1, 5⟩ :=
  c5_amended 1 2 1 1 1 4 5 (by norm_num) (by norm_num) (by norm_num) (by norm_num)
    (by norm_num)

noncomputable section

/-- Population mean of a list of values. -/
def popMean (l : List ℝ) : ℝ := l.sum / l.length

/-- Population variance of a list of values (division by the list length,
not length - 1, as in the source slice.reduce computations). -/
def popVar (l : List ℝ) : ℝ := (l.map (fun v => (v - popMean l) ^ 2)).sum / l.length

/-- The centered window slice used by rollingZScore at index i:
data.slice(start, end + 1) with start = max(0, i - floor(window/2)) and
end = min(data.length - 1, i + floor(window/2)); natural subtraction
implements the max with 0. -/
def windowSlice (data : List ℝ) (window i : ℕ) : List ℝ :=
  (data.drop (i - window / 2)).take
    (min (data.length - 1) (i + window / 2) + 1 - (i - window / 2))

/-- The per-index body of rollingZScore in the source: undefined for fewer
than 3 window points, 0 for zero standard deviation, else the z-score. -/
def zAt (data : List ℝ) (window i : ℕ) (v : ℝ) : Option ℝ :=
  let slice := windowSlice data window i
  if slice.length < 3 then none
  else if Real.sqrt (popVar slice) = 0 then some 0
  else some ((v - popMean slice) / Real.sqrt (popVar slice))

/-- Rolling centered-window z-scores (rollingZScore in the source). -/
def rollingZScore (data : List ℝ) (window : ℕ) : List (Option ℝ) :=
  data.enum.map (fun p => zAt data window p.1 p.2)

/-- The CUSUM accumulation loop of detectChangepoints: walks the remaining
indices carrying the two one-sided cumulative sums, emitting an index and
resetting both sums whenever a threshold crossing is detected. -/
def cusumGo (data : List ℝ) (mean std h : ℝ) : List ℕ → ℝ → ℝ → List ℕ
  | [], _, _ => []
  | i :: rest, sPos, sNeg =>
    let diff := data.getD i 0 - mean
    let sPos2 := max 0 (sPos + diff - std * 0.5)
    let sNeg2 := min 0 (sNeg + diff + std * 0.5)
    if h < sPos2 ∨ sNeg2 < -h then i :: cusumGo data mean std h rest 0 0
    else cusumGo data mean std h rest sPos2 sNeg2

/-- CUSUM changepoint detection (detectChangepoints in the source): empty for
fewer than 10 points, otherwise the loop over indices 1 .. length-1 with
threshold defaulting to 4 times the population standard deviation. -/
def detectChangepoints (data : List ℝ) (threshold : Option ℝ) : List ℕ :=
  if data.length < 10 then []
  else
    let mean := data.sum / data.length
    let std := Real.sqrt ((data.map (fun v => (v - mean) ^ 2)).sum / data.length)
    let h := threshold.getD (std * 4)
    cusumGo data mean std h (List.range' 1 (data.length - 1)) 0 0

end

/-- C9: for every series with fewer than 10 points, detectChangepoints returns
the empty list of changepoint indices (no error, no exception). -/
theorem c9_short_series (data : List ℝ) (threshold : Option ℝ)
    (h : data.length < 10) : detectChangepoints data threshold = [] := by
  rw [detectChangepoints, if_pos h]

/-- C9 witness on a concrete 3-point series with no explicit threshold. -/
theorem c9_short_series_witness :
    detectChangepoints [5, 6, 7] none = [] :=
  c9_short_series [5, 6, 7] none (by norm_num)

/-- Helper: the CUSUM loop only ever emits indices from the list it walks,
in order and without repetition (its output is a sublist of its input). -/
theorem cusumGo_sublist (data : List ℝ) (mean std h : ℝ) :
    ∀ (l : List ℕ) (sPos sNeg : ℝ), (cusumGo data mean std h l sPos sNeg).Sublist l := by
  intro l
  induction l with
  | nil => intro sPos sNeg; simp [cusumGo]
  | cons i rest ih =>
    intro sPos sNeg
    rw [cusumGo]
    split
    · exact List.cons_sublist_cons.mpr (ih 0 0)
    · exact (ih _ _).cons i

/-- C10: the changepoint index list is strictly increasing, every index lies
between 1 and data.length - 1 inclusive, index 0 never appears, and no index
is repeated. -/
theorem c10_changepoint_indices (data : List ℝ) (threshold : Option ℝ) :
    (detectChangepoints data threshold).Pairwise (· < ·) ∧
    (∀ x ∈ detectChangepoints data threshold, 1 ≤ x ∧ x ≤ data.length - 1) ∧
    0 ∉ detectChangepoints data threshold ∧
    (detectChangepoints data threshold).Nodup := by
  have hmain : (detectChangepoints data threshold).Pairwise (· < ·) ∧
      ∀ x ∈ detectChangepoints data threshold, 1 ≤ x ∧ x ≤ data.length - 1 := by
    by_cases hlen : data.length < 10
    · rw [detectChangepoints, if_pos hlen]
      exact ⟨List.Pairwise.nil, by intro x hx; simp at hx⟩
    · have hsub : (detectChangepoints data threshold).Sublist
          (List.range' 1 (data.length - 1)) := by
        rw [detectChangepoints, if_neg hlen]
        exact cusumGo_sublist _ _ _ _ _ _ _
      constructor
      · exact List.Pairwise.sublist hsub (List.pairwise_lt_range' 1 (data.length - 1))
      · intro x hx
        have hx2 := List.mem_range'_1.mp (hsub.subset hx)
        omega
  refine ⟨hmain.1, hmain.2, ?_, ?_⟩
  · intro hcon
    have := (hmain.2 0 hcon).1
    omega
  · exact List.Pairwise.imp (fun hab => Nat.ne_of_lt hab) hmain.1

/-- The C8 property at a series, window and index: if the centered window
[max(0, i - floor(w/2)), min(len - 1, i + floor(w/2))] contains fewer than 3
points the result is undefined (none); if it has at least 3 points and the
windowed population standard deviation is exactly 0 the result is the defined
value 0; otherwise the result is (value - window mean) / window standard
deviation. -/
def rollingZScoreSpec (data : List ℝ) (window i : ℕ) : Prop :=
  ((Finset.Icc (i - window / 2) (min (data.length - 1) (i + window / 2))).card < 3 →
    (rollingZScore data window).getD i none = none) ∧
  (3 ≤ (Finset.Icc (i - window / 2) (min (data.length - 1) (i + window / 2))).card →
    Real.sqrt (popVar (windowSlice data window i)) = 0 →
    (rollingZScore data window).getD i none = some 0) ∧
  (3 ≤ (Finset.Icc (i - window / 2) (min (data.length - 1) (i + window / 2))).card →
    Real.sqrt (popVar (windowSlice data window i)) ≠ 0 →
    (rollingZScore data window).getD i none =
      some ((data.getD i 0 - popMean (windowSlice data window i)) /
        Real.sqrt (popVar (windowSlice data window i))))

/-- C8: the rolling z-score has exactly the three-case behaviour of the spec at
every valid index. -/
theorem c8_rollingZScore_cases (data : List ℝ) (window i : ℕ)
    (hi : i < data.length) : rollingZScoreSpec data window i := by
  have hlen : (rollingZScore data window).length = data.length := by
    unfold rollingZScore
    rw [List.length_map, List.enum_length]
  have hres : (rollingZScore data window).getD i none =
      zAt data window i (data[i]) := by
    rw [List.getD_eq_getElem?_getD,
      List.getElem?_eq_getElem (by rw [hlen]; exact hi)]
    simp only [Option.getD_some]
    unfold rollingZScore
    rw [List.getElem_map, List.getElem_enum]
  have hgetD : data.getD i 0 = data[i] := by
    rw [List.getD_eq_getElem?_getD, List.getElem?_eq_getElem hi]
    rfl
  have hcard : (Finset.Icc (i - window / 2)
      (min (data.length - 1) (i + window / 2))).card =
      (windowSlice data window i).length := by
    rw [Nat.card_Icc, windowSlice, List.length_take, List.length_drop]
    have h1 : min (data.length - 1) (i + window / 2) ≤ data.length - 1 :=
      min_le_left _ _
    have h2 : i - window / 2 ≤ i := Nat.sub_le _ _
    have h3 : i ≤ min (data.length - 1) (i + window / 2) := by
      refine le_min ?_ (Nat.le_add_right _ _)
      omega
    omega
  refine ⟨?_, ?_, ?_⟩
  · intro hc
    rw [hres, zAt, if_pos (by rw [← hcard]; exact hc)]
  · intro hc hstd
    rw [hres, zAt, if_neg (by rw [← hcard]; omega), if_pos hstd]
  · intro hc hstd
    rw [hres, zAt, if_neg (by rw [← hcard]; omega), if_neg hstd, hgetD]

/-- C8 witness at the series [1, 2, 4] with window 5 at index 0 (the window
covers all three points). -/
theorem c8_rollingZScore_witness : rollingZScoreSpec [1, 2, 4] 5 0 :=
  c8_rollingZScore_cases [1, 2, 4] 5 0 (by norm_num)

noncomputable section

/- Domain-checked counterparts of the metric calculators.  Each partial
floating-point operation that can produce NaN or Infinity on a bad argument
(division by zero; sqrt, log, log2 on a non-positive argument) is replaced by
an Option-valued operation that fails on the bad argument.  A calculator is
total and NaN/Infinity-free on an input exactly when its checked counterpart
returns `some` of the unchecked value there. -/

/-- Checked square root: defined only for strictly positive arguments. -/
def csqrt (x : ℝ) : Option ℝ := if 0 < x then some (Real.sqrt x) else none

/-- Checked natural logarithm: defined only for strictly positive arguments. -/
def clog (x : ℝ) : Option ℝ := if 0 < x then some (Real.log x) else none

/-- Checked base-2 logarithm: defined only for strictly positive arguments. -/
def clog2 (x : ℝ) : Option ℝ := if 0 < x then some (Real.logb 2 x) else none

/-- Checked division: defined only for nonzero divisors. -/
def cdiv (x y : ℝ) : Option ℝ := if y = 0 then none else some (x / y)

/-- Domain-checked normalCDF. -/
def normalCDFChecked (x : ℝ) : Option ℝ :=
  if x < -8 then some 0
  else if 8 < x then some 1
  else
    let sign : ℝ := if x < 0 then -1 else 1
    let absX := |x|
    do
      let t ← cdiv 1 (1 + 0.3275911 * absX)
      let y := 1 -
        ((((1.061405429 * t + -1.453152027) * t + 1.421413741) * t + -0.284496736) * t
            + 0.254829592) * t * Real.exp (-absX * absX / 2)
      some (0.5 * (1 + sign * y))

/-- Domain-checked chi2PValue1df. -/
def chi2PValue1dfChecked (chi2 : ℝ) : Option ℝ :=
  if chi2 ≤ 0 then some 1
  else do
    let s ← csqrt chi2
    let c ← normalCDFChecked s
    some (2 * (1 - c))

/-- Domain-checked computePRR. -/
def computePRRChecked (t : ContingencyTable) : Option ℝ :=
  if t.a + t.b = 0 ∨ t.c + t.d = 0 ∨ t.c = 0 then some 0
  else do
    let r1 ← cdiv t.a (t.a + t.b)
    let r2 ← cdiv t.c (t.c + t.d)
    cdiv r1 r2

/-- Domain-checked computeChi2. -/
def computeChi2Checked (t : ContingencyTable) : Option ℝ :=
  if (t.a + t.b) * (t.c + t.d) * (t.a + t.c) * (t.b + t.d) = 0 then some 0
  else cdiv ((t.a * t.d - t.b * t.c) ^ 2 * (t.a + t.b + t.c + t.d))
    ((t.a + t.b) * (t.c + t.d) * (t.a + t.c) * (t.b + t.d))

/-- Domain-checked computeROR. -/
def computeRORChecked (t : ContingencyTable) : Option ℝ :=
  if t.b = 0 ∨ t.c = 0 then some 0 else cdiv (t.a * t.d) (t.b * t.c)

/-- Domain-checked computeROR_CI. -/
def computeROR_CIChecked (t : ContingencyTable) : Option (ℝ × ℝ) :=
  if t.a = 0 ∨ t.b = 0 ∨ t.c = 0 ∨ t.d = 0 then some (0, 0)
  else do
    let q ← cdiv (t.a * t.d) (t.b * t.c)
    let lnROR ← clog q
    let i1 ← cdiv 1 t.a
    let i2 ← cdiv 1 t.b
    let i3 ← cdiv 1 t.c
    let i4 ← cdiv 1 t.d
    let se ← csqrt (i1 + i2 + i3 + i4)
    some (Real.exp (lnROR - 1.96 * se), Real.exp (lnROR + 1.96 * se))

/-- Domain-checked computeIC. -/
def computeICChecked (t : ContingencyTable) : Option ℝ :=
  if t.a = 0 ∨ t.a + t.b = 0 ∨ t.a + t.c = 0 then some 0
  else do
    let expected ← cdiv ((t.a + t.b) * (t.a + t.c)) (t.a + t.b + t.c + t.d)
    if expected = 0 then some 0
    else do
      let q ← cdiv t.a expected
      clog2 q

/-- Domain-checked computeIC025. -/
def computeIC025Checked (t : ContingencyTable) : Option ℝ := do
  let ic ← computeICChecked t
  if t.a ≤ 0 then some 0
  else do
    let s ← csqrt (max t.a 0.5)
    let se ← cdiv 1 (Real.log 2 * s)
    some (ic - 1.96 * se)

/-- Domain-checked computeIC975. -/
def computeIC975Checked (t : ContingencyTable) : Option ℝ := do
  let ic ← computeICChecked t
  if t.a ≤ 0 then some 0
  else do
    let s ← csqrt (max t.a 0.5)
    let se ← cdiv 1 (Real.log 2 * s)
    some (ic + 1.96 * se)

end

/-- Helper: the checked normal CDF always succeeds and agrees with normalCDF
(the only division has denominator 1 + 0.3275911 * absX, at least 1). -/
theorem normalCDFChecked_eq (x : ℝ) : normalCDFChecked x = some (normalCDF x) := by
  rw [normalCDFChecked, normalCDF]
  by_cases h1 : x < -8
  · rw [if_pos h1, if_pos h1]
  · rw [if_neg h1, if_neg h1]
    by_cases h2 : 8 < x
    · rw [if_pos h2, if_pos h2]
    · rw [if_neg h2, if_neg h2]
      have hden : (1 : ℝ) + 0.3275911 * |x| ≠ 0 := by positivity
      have hc : cdiv 1 (1 + 0.3275911 * |x|) = some (1 / (1 + 0.3275911 * |x|)) := by
        rw [cdiv, if_neg hden]
      simp only [hc, Option.bind_eq_bind, Option.some_bind]

/-- Helper: the checked chi-squared p-value always succeeds and agrees with
chi2PValue1df (sqrt is reached only for strictly positive chi2). -/
theorem chi2PValue1dfChecked_eq (x : ℝ) :
    chi2PValue1dfChecked x = some (chi2PValue1df x) := by
  rw [chi2PValue1dfChecked, chi2PValue1df]
  by_cases h : x ≤ 0
  · rw [if_pos h, if_pos h]
  · rw [if_neg h, if_neg h]
    have hs : csqrt x = some (Real.sqrt x) := by
      rw [csqrt, if_pos (not_le.mp h)]
    simp only [hs, Option.bind_eq_bind, Option.some_bind,
      normalCDFChecked_eq (Real.sqrt x)]

/-- Helper: the checked PRR succeeds and agrees with computePRR on tables with
non-negative cells. -/
theorem computePRRChecked_eq (t : ContingencyTable) :
    computePRRChecked t = some (computePRR t) := by
  rw [computePRRChecked, computePRR]
  by_cases hg : t.a + t.b = 0 ∨ t.c + t.d = 0 ∨ t.c = 0
  · rw [if_pos hg, if_pos hg]
  · rw [if_neg hg, if_neg hg]
    obtain ⟨h1, hrest⟩ := not_or.mp hg
    obtain ⟨h2, h3⟩ := not_or.mp hrest
    have hc1 : cdiv t.a (t.a + t.b) = some (t.a / (t.a + t.b)) := by
      rw [cdiv, if_neg h1]
    have hc2 : cdiv t.c (t.c + t.d) = some (t.c / (t.c + t.d)) := by
      rw [cdiv, if_neg h2]
    have hc3 : cdiv (t.a / (t.a + t.b)) (t.c / (t.c + t.d)) =
        some (t.a / (t.a + t.b) / (t.c / (t.c + t.d))) := by
      rw [cdiv, if_neg (div_ne_zero h3 h2)]
    simp only [hc1, hc2, hc3, Option.bind_eq_bind, Option.some_bind]

/-- Helper: the checked chi-squared statistic succeeds and agrees with
computeChi2. -/
theorem computeChi2Checked_eq (t : ContingencyTable) :
    computeChi2Checked t = some (computeChi2 t) := by
  rw [computeChi2Checked, computeChi2]
  by_cases hg : (t.a + t.b) * (t.c + t.d) * (t.a + t.c) * (t.b + t.d) = 0
  · rw [if_pos hg, if_pos hg]
  · rw [if_neg hg, if_neg hg, cdiv, if_neg hg]

/-- Helper: the checked ROR succeeds and agrees with computeROR. -/
theorem computeRORChecked_eq (t : ContingencyTable) :
    computeRORChecked t = some (computeROR t) := by
  rw [computeRORChecked, computeROR]
  by_cases hg : t.b = 0 ∨ t.c = 0
  · rw [if_pos hg, if_pos hg]
  · rw [if_neg hg, if_neg hg]
    obtain ⟨h1, h2⟩ := not_or.mp hg
    rw [cdiv, if_neg (mul_ne_zero h1 h2)]

/-- Helper: the checked ROR confidence interval succeeds and agrees with
computeROR_CI on tables with non-negative cells: in the non-degenerate branch
every cell is strictly positive, so the log argument a*d/(b*c) and the sqrt
argument 1/a + 1/b + 1/c + 1/d are strictly positive. -/
theorem computeROR_CIChecked_eq (t : ContingencyTable)
    (ha : 0 ≤ t.a) (hb : 0 ≤ t.b) (hc : 0 ≤ t.c) (hd : 0 ≤ t.d) :
    computeROR_CIChecked t = some (computeROR_CI t) := by
  rw [computeROR_CIChecked, computeROR_CI]
  by_cases hg : t.a = 0 ∨ t.b = 0 ∨ t.c = 0 ∨ t.d = 0
  · rw [if_pos hg, if_pos hg]
  · rw [if_neg hg, if_neg hg]
    push_neg at hg
    obtain ⟨h1, h2, h3, h4⟩ := hg
    have ha2 : 0 < t.a := lt_of_le_of_ne ha (Ne.symm h1)
    have hb2 : 0 < t.b := lt_of_le_of_ne hb (Ne.symm h2)
    have hc2 : 0 < t.c := lt_of_le_of_ne hc (Ne.symm h3)
    have hd2 : 0 < t.d := lt_of_le_of_ne hd (Ne.symm h4)
    have hq : cdiv (t.a * t.d) (t.b * t.c) = some (t.a * t.d / (t.b * t.c)) := by
      rw [cdiv, if_neg (mul_ne_zero h2 h3)]
    have hl : clog (t.a * t.d / (t.b * t.c)) =
        some (Real.log (t.a * t.d / (t.b * t.c))) := by
      rw [clog, if_pos (by positivity)]
    have hi1 : cdiv 1 t.a = some (1 / t.a) := by rw [cdiv, if_neg h1]
    have hi2 : cdiv 1 t.b = some (1 / t.b) := by rw [cdiv, if_neg h2]
    have hi3 : cdiv 1 t.c = some (1 / t.c) := by rw [cdiv, if_neg h3]
    have hi4 : cdiv 1 t.d = some (1 / t.d) := by rw [cdiv, if_neg h4]
    have hse : csqrt (1 / t.a + 1 / t.b + 1 / t.c + 1 / t.d) =
        some (Real.sqrt (1 / t.a + 1 / t.b + 1 / t.c + 1 / t.d)) := by
      rw [csqrt, if_pos (by positivity)]
    simp only [hq, hl, hi1, hi2, hi3, hi4, hse, Option.bind_eq_bind, Option.some_bind]

/-- Helper: the checked IC succeeds and agrees with computeIC on tables with
non-negative cells: in the non-degenerate branch a > 0, so the recomputed
total and the expected count are strictly positive and the log2 argument
a / expected is strictly positive. -/
theorem computeICChecked_eq (t : ContingencyTable)
    (ha : 0 ≤ t.a) (hb : 0 ≤ t.b) (hc : 0 ≤ t.c) (hd : 0 ≤ t.d) :
    computeICChecked t = some (computeIC t) := by
  rw [computeICChecked, computeIC]
  by_cases hg : t.a = 0 ∨ t.a + t.b = 0 ∨ t.a + t.c = 0
  · rw [if_pos hg, if_pos hg]
  · rw [if_neg hg, if_neg hg]
    obtain ⟨h1, hrest⟩ := not_or.mp hg
    have ha2 : 0 < t.a := lt_of_le_of_ne ha (Ne.symm h1)
    have hn : (0 : ℝ) < t.a + t.b + t.c + t.d := by positivity
    have hexp : (0 : ℝ) < (t.a + t.b) * (t.a + t.c) / (t.a + t.b + t.c + t.d) := by
      have hab : (0 : ℝ) < t.a + t.b := by positivity
      have hac : (0 : ℝ) < t.a + t.c := by positivity
      positivity
    have hce : cdiv ((t.a + t.b) * (t.a + t.c)) (t.a + t.b + t.c + t.d) =
        some ((t.a + t.b) * (t.a + t.c) / (t.a + t.b + t.c + t.d)) := by
      rw [cdiv, if_neg (ne_of_gt hn)]
    have hcq : cdiv t.a ((t.a + t.b) * (t.a + t.c) / (t.a + t.b + t.c + t.d)) =
        some (t.a / ((t.a + t.b) * (t.a + t.c) / (t.a + t.b + t.c + t.d))) := by
      rw [cdiv, if_neg (ne_of_gt hexp)]
    have hcl : clog2 (t.a / ((t.a + t.b) * (t.a + t.c) / (t.a + t.b + t.c + t.d))) =
        some (Real.logb 2
          (t.a / ((t.a + t.b) * (t.a + t.c) / (t.a + t.b + t.c + t.d)))) := by
      rw [clog2, if_pos (by positivity)]
    rw [if_neg (ne_of_gt hexp)]
    simp only [hce, Option.bind_eq_bind, Option.some_bind]
    rw [if_neg (ne_of_gt hexp)]
    simp only [hcq, Option.bind_eq_bind, Option.some_bind, hcl]

/-- Helper: the checked IC025 succeeds and agrees with computeIC025 on tables
with non-negative cells (the sqrt argument max(a, 0.5) is at least 0.5 and the
divisor ln 2 times that sqrt is strictly positive). -/
theorem computeIC025Checked_eq (t : ContingencyTable)
    (ha : 0 ≤ t.a) (hb : 0 ≤ t.b) (hc : 0 ≤ t.c) (hd : 0 ≤ t.d) :
    computeIC025Checked t = some (computeIC025 t) := by
  rw [computeIC025Checked, computeIC025]
  simp only [computeICChecked_eq t ha hb hc hd, Option.bind_eq_bind, Option.some_bind]
  by_cases hg : t.a ≤ 0
  · rw [if_pos hg, if_pos hg]
  · rw [if_neg hg, if_neg hg]
    have hmax : (0 : ℝ) < max t.a 0.5 := lt_max_of_lt_right (by norm_num)
    have hs : csqrt (max t.a 0.5) = some (Real.sqrt (max t.a 0.5)) := by
      rw [csqrt, if_pos hmax]
    have hl2 : (0 : ℝ) < Real.log 2 := Real.log_pos (by norm_num)
    have hden : Real.log 2 * Real.sqrt (max t.a 0.5) ≠ 0 :=
      ne_of_gt (mul_pos hl2 (Real.sqrt_pos.mpr hmax))
    have hse : cdiv 1 (Real.log 2 * Real.sqrt (max t.a 0.5)) =
        some (1 / (Real.log 2 * Real.sqrt (max t.a 0.5))) := by
      rw [cdiv, if_neg hden]
    simp only [hs, hse, Option.bind_eq_bind, Option.some_bind]

/-- Helper: the checked IC975 succeeds and agrees with computeIC975 on tables
with non-negative cells. -/
theorem computeIC975Checked_eq (t : ContingencyTable)
    (ha : 0 ≤ t.a) (hb : 0 ≤ t.b) (hc : 0 ≤ t.c) (hd : 0 ≤ t.d) :
    computeIC975Checked t = some (computeIC975 t) := by
  rw [computeIC975Checked, computeIC975]
  simp only [computeICChecked_eq t ha hb hc hd, Option.bind_eq_bind, Option.some_bind]
  by_cases hg : t.a ≤ 0
  · rw [if_pos hg, if_pos hg]
  · rw [if_neg hg, if_neg hg]
    have hmax : (0 : ℝ) < max t.a 0.5 := lt_max_of_lt_right (by norm_num)
    have hs : csqrt (max t.a 0.5) = some (Real.sqrt (max t.a 0.5)) := by
      rw [csqrt, if_pos hmax]
    have hl2 : (0 : ℝ) < Real.log 2 := Real.log_pos (by norm_num)
    have hden : Real.log 2 * Real.sqrt (max t.a 0.5) ≠ 0 :=
      ne_of_gt (mul_pos hl2 (Real.sqrt_pos.mpr hmax))
    have hse : cdiv 1 (Real.log 2 * Real.sqrt (max t.a 0.5)) =
        some (1 / (Real.log 2 * Real.sqrt (max t.a 0.5))) := by
      rw [cdiv, if_neg hden]
    simp only [hs, hse, Option.bind_eq_bind, Option.some_bind]

/-- C6: on every table with non-negative cells each metric calculator is total
and domain-safe: its checked counterpart, in which every division requires a
nonzero divisor and every sqrt/log/log2 requires a strictly positive argument,
succeeds and returns exactly the unchecked value.  The guarded degenerate
branches return the 0 (or (0, 0)) sentinels and cover all remaining cases. -/
theorem c6_calculators_total (t : ContingencyTable)
    (ha : 0 ≤ t.a) (hb : 0 ≤ t.b) (hc : 0 ≤ t.c) (hd : 0 ≤ t.d) :
    computePRRChecked t = some (computePRR t) ∧
    computeChi2Checked t = some (computeChi2 t) ∧
    (∀ x : ℝ, chi2PValue1dfChecked x = some (chi2PValue1df x)) ∧
    computeRORChecked t = some (computeROR t) ∧
    computeROR_CIChecked t = some (computeROR_CI t) ∧
    computeICChecked t = some (computeIC t) ∧
    computeIC025Checked t = some (computeIC025 t) ∧
    computeIC975Checked t = some (computeIC975 t) :=
  ⟨computePRRChecked_eq t, computeChi2Checked_eq t, chi2PValue1dfChecked_eq,
    computeRORChecked_eq t, computeROR_CIChecked_eq t ha hb hc hd,
    computeICChecked_eq t ha hb hc hd, computeIC025Checked_eq t ha hb hc hd,
    computeIC975Checked_eq t ha hb hc hd⟩

/-- C6 witness at the table {a:1, b:2, c:3, d:4, n:10}. -/
theorem c6_calculators_total_witness :
    computePRRChecked ⟨1, 2, 3, 4, 10⟩ = some (computePRR ⟨1, 2, 3, 4, 10⟩) ∧
    computeChi2Checked ⟨1, 2, 3, 4, 10⟩ = some (computeChi2 ⟨1, 2, 3, 4, 10⟩) ∧
    (∀ x : ℝ, chi2PValue1dfChecked x = some (chi2PValue1df x)) ∧
    computeRORChecked ⟨1, 2, 3, 4, 10⟩ = some (computeROR ⟨1, 2, 3, 4, 10⟩) ∧
    computeROR_CIChecked ⟨1, 2, 3, 4, 10⟩ = some (computeROR_CI ⟨1, 2, 3, 4, 10⟩) ∧
    computeICChecked ⟨1, 2, 3, 4, 10⟩ = some (computeIC ⟨1, 2, 3, 4, 10⟩) ∧
    computeIC025Checked ⟨1, 2, 3, 4, 10⟩ = some (computeIC025 ⟨1, 2, 3, 4, 10⟩) ∧
    computeIC975Checked ⟨1, 2, 3, 4, 10⟩ = some (computeIC975 ⟨1, 2, 3, 4, 10⟩) :=
  c6_calculators_total ⟨1, 2, 3, 4, 10⟩ (by norm_num) (by norm_num) (by norm_num)
    (by norm_num)

end Opencore
